import Mathlib

/-!
Shallow embedding of the 1brc aggregation program (`main.go`).

Bytes are modelled as `Nat` (values 0..255), byte strings as `List Nat`.
Go's `int16`/`int64` quantities (`measurement`, `sumT`, `minT`, `maxT`) are
modelled as `Int`: on the values reachable in the verified statements the
machine arithmetic never wraps (|value| ≤ 999, digit arithmetic ≤ 28 050),
so `Int` agrees with the machine semantics there.  The 32-bit hash state is
kept reduced modulo `2^32` at every step, matching `uint32` arithmetic.
Out-of-range slice indexing, which is a runtime panic in Go, is modelled by
`Option`: `none` means the program crashes.
-/

abbrev Byte := Nat

/-- The line terminator byte `'\n'`. -/
def newlineByte : Byte := 10

/-- The field separator byte `';'`. -/
def separatorByte : Byte := 59

/-- Go slice indexing `data[i]` with an `int` index: panics (`none`) when the
index is negative or not below the length. -/
def byteAt (data : List Byte) (i : Int) : Option Byte :=
  if h : 0 ≤ i ∧ i.toNat < data.length then some (data.get ⟨i.toNat, h.2⟩) else none

/-- Models the Go expression `measurement(b - 48)`: the subtraction happens on
`byte` (so it wraps modulo 256) and is then widened to `int16`. -/
def digitVal (b : Byte) : Int := ((b + 208) % 256 : Nat)

/-- Model of `parseNumber` from `main.go`: hand-unrolled decoding of the value field
(`D.D`, `DD.D`, `-D.D`, `-DD.D`) into the signed fixed-point integer
(decimal × 10).  `none` models an out-of-range byte access. -/
def parseNumber (line : List Byte) : Option Int :=
  match line.get? 0 with
  | none => none
  | some b0 =>
    if b0 = 45 then
      -- negative: the line can be 4 or 5 bytes
      if line.length = 4 then
        match line.get? 1, line.get? 3 with
        | some b1, some b3 => some (-(10 * digitVal b1 + digitVal b3))
        | _, _ => none
      else
        match line.get? 1, line.get? 2, line.get? 4 with
        | some b1, some b2, some b4 =>
            some (-(100 * digitVal b1 + 10 * digitVal b2 + digitVal b4))
        | _, _, _ => none
    else
      -- positive: the line can be 3 or 4 bytes
      if line.length = 3 then
        match line.get? 2 with
        | some b2 => some (10 * digitVal b0 + digitVal b2)
        | none => none
      else
        match line.get? 1, line.get? 3 with
        | some b1, some b3 => some (100 * digitVal b0 + 10 * digitVal b1 + digitVal b3)
        | _, _ => none

/-- Model of `parseLine` from `main.go`.  Result:
* `none`              — a slice access was out of range (Go runtime panic);
* `some none`         — no `'\n'` in `data` (Go returns `-1, "", 0`);
* `some (some (newlineIdx, name, value))` — a parsed record.

The Go code evaluates `data[newlineIdx-4]` and `data[newlineIdx-6]` eagerly
(`check3, check5 := ...`) before branching, so both indices are range-checked
here before the separator position is chosen. -/
def parseLine (data : List Byte) : Option (Option (Nat × List Byte × Int)) :=
  match data.findIdx? (· == newlineByte) with
  | none => some none
  | some newlineIdx =>
    match byteAt data ((newlineIdx : Int) - 4), byteAt data ((newlineIdx : Int) - 6) with
    | some check3, some check5 =>
      let separatorIdx : Nat :=
        if check3 = separatorByte then newlineIdx - 4
        else if check5 = separatorByte then newlineIdx - 6
        else newlineIdx - 5
      match parseNumber ((data.take newlineIdx).drop (separatorIdx + 1)) with
      | some v => some (some (newlineIdx, data.take separatorIdx, v))
      | none => none
    | _, _ => none

/-- The `stats` record of `main.go` (`sum`, `min`, `max`, `count`). -/
structure Stats where
  sum : Int
  min : Int
  max : Int
  count : Nat
deriving DecidableEq, Repr, Inhabited

/-- Model of `updateStats` from `main.go`: the first observation (count = 0) sets all
fields from the value; later observations fold the value in. -/
def updateStats (s : Stats) (m : Int) : Stats :=
  if s.count = 0 then ⟨m, m, m, 1⟩
  else ⟨s.sum + m, min s.min m, max s.max m, s.count + 1⟩

/-- The per-field combination performed on two `stats` by `sumChunk`
(`count+count`, `sum+sum`, `min`/`max` of the extremes). -/
def mergeStats (a b : Stats) : Stats :=
  ⟨a.sum + b.sum, min a.min b.min, max a.max b.max, a.count + b.count⟩

/-- Go `f.ReadAt(data, start)` on a pure byte source: a buffer of `n` bytes
read at offset `off` returns `min n (file.length - off)` bytes; the read is
short (and Go reports `io.EOF`) exactly when fewer than `n` bytes remain. -/
def readAt (file : List Byte) (off n : Nat) : List Byte :=
  (file.drop off).take n

/-- Model of `bytes.LastIndexByte`: index of the last occurrence of `b`, if any. -/
def lastIdxOf : List Byte → Byte → Option Nat
  | [], _ => none
  | a :: as, b =>
    match lastIdxOf as b with
    | some p => some (p + 1)
    | none => if a = b then some 0 else none

/-- Model of `findEndIdx` from `main.go`: last `'\n'` in `data[:idx+1]`, position one
past it; `idx` itself when there is no terminator at all. -/
def findEndIdx (data : List Byte) (idx : Nat) : Nat :=
  match lastIdxOf (data.take (idx + 1)) newlineByte with
  | none => idx
  | some p => p + 1

/-- The producer loop of `chunkByBytes` from `main.go`, one recursive call per
iteration.  `fuel` bounds the number of iterations; `none` means the fuel ran
out (the Go loop would still be running).  A short read is the `io.EOF` case:
the final `data[:n]` chunk is emitted and the loop returns.  Otherwise the
chunk is cut at `findEndIdx data (chunkSize-1)` and the next read starts at
the cut. -/
def chunkLoop (file : List Byte) (chunkSize : Nat) : Nat → Nat → Option (List (List Byte))
  | 0, _ => none
  | fuel + 1, off =>
    let data := readAt file off chunkSize
    if data.length < chunkSize then
      some [data]
    else
      let chunkEnd := findEndIdx data (chunkSize - 1)
      (chunkLoop file chunkSize fuel (off + chunkEnd)).map (data.take chunkEnd :: ·)

/-- Model of `chunkByBytes` from `main.go` (the data of the emitted chunks, in order).
`file.length + 1` iterations always suffice when the loop terminates, since
every iteration that is not the final short read advances the offset. -/
def chunkByBytes (file : List Byte) (chunkSize : Nat) : Option (List (List Byte)) :=
  chunkLoop file chunkSize (file.length + 1) 0

/-- The 2-bytes-at-a-time hash loop of `stationPos`: `block` is the two bytes
little-endian, the state is `uint32` (kept reduced mod `2^32`). -/
def hashLoop : List Byte → Nat → Nat
  | b0 :: b1 :: rest, h => hashLoop rest ((h * 16777619 + (b0 + b1 * 256)) % 4294967296)
  | _, h => h

/-- The hash value computed by `stationPos` before the final reduction
(seed 2166136261, any odd trailing byte not folded). -/
def stationHash (station : List Byte) : Nat :=
  hashLoop station 2166136261

/-- Model of `stationPos` from `main.go`: `hash % uint32(capacity)`.  The conversion
`uint32(capacity)` truncates the capacity modulo `2^32`; when the truncation
is zero, `%` is a division by zero and Go panics (`none`). -/
def stationPos (station : List Byte) (capacity : Nat) : Option Nat :=
  if capacity % 4294967296 = 0 then none
  else some (stationHash station % (capacity % 4294967296))

/-- Model of `bucketItem` from `main.go`. -/
structure BucketItem where
  stats : Stats
  name : List Byte
deriving DecidableEq, Repr, Inhabited

/-- Model of `bucket` from `main.go`. -/
structure Bucket where
  items : List BucketItem
deriving DecidableEq, Repr, Inhabited

/-- Model of `simpleMap` from `main.go`.  `stats` pointers are modelled by value: every
in-place `*stats` mutation the program performs is reflected by storing the
updated record back at the same position. -/
structure SimpleMap where
  data : List Bucket
  capacity : Nat
  length : Nat
deriving DecidableEq, Repr, Inhabited

/-- Model of `newSimpleMap` from `main.go`. -/
def newSimpleMap (capacity : Nat) : SimpleMap :=
  ⟨List.replicate capacity ⟨[]⟩, capacity, 0⟩

/-- Model of `simpleMap.pos` from `main.go`. -/
def SimpleMap.pos (m : SimpleMap) (name : List Byte) : Option Nat :=
  stationPos name m.capacity

/-- The linear scan of `simpleMap.get` over a bucket's items (first match). -/
def bucketGetLoop : List BucketItem → List Byte → Option Stats
  | [], _ => none
  | it :: rest, name => if it.name = name then some it.stats else bucketGetLoop rest name

/-- Model of `simpleMap.get` from `main.go`, with its fast paths for an empty bucket
and for a bucket of exactly one item. -/
def SimpleMap.get (m : SimpleMap) (pos : Nat) (name : List Byte) : Option Stats :=
  let bucket := m.data.getD pos ⟨[]⟩
  if bucket.items.length = 0 then none
  else if bucket.items.length = 1 then
    if (bucket.items.getD 0 default).name ≠ name then none
    else some (bucket.items.getD 0 default).stats
  else bucketGetLoop bucket.items name

/-- The replace-or-append loop of `simpleMap.set`: replace the stats of the
first item with the given name, else append a new item at the end.  The
`Bool` is `true` when a new item was appended (the map's length grows). -/
def bucketSetLoop : List BucketItem → List Byte → Stats → List BucketItem × Bool
  | [], name, st => ([⟨st, name⟩], true)
  | it :: rest, name, st =>
    if it.name = name then (⟨st, it.name⟩ :: rest, false)
    else
      let r := bucketSetLoop rest name st
      (it :: r.1, r.2)

/-- Model of `simpleMap.set` from `main.go`.  In the replace branch the Go code writes
through the shared slice backing array (`bucket.items[i] = item`) without
reassigning `m.data[pos]`; the effect is the same updated bucket. -/
def SimpleMap.set (m : SimpleMap) (pos : Nat) (name : List Byte) (st : Stats) : SimpleMap :=
  let bucket := m.data.getD pos ⟨[]⟩
  if bucket.items.length = 0 then
    ⟨m.data.set pos ⟨[⟨st, name⟩]⟩, m.capacity, m.length + 1⟩
  else
    let r := bucketSetLoop bucket.items name st
    ⟨m.data.set pos ⟨r.1⟩, m.capacity, if r.2 then m.length + 1 else m.length⟩

/-- The bucket-advance `for` loop inside the closure returned by
`simpleMap.iter`: starting at `i = bucketIndex + 1`, assign `bucketIndex = i`
on every iteration and stop (resetting `itemIndex` to 0) at the first
non-empty bucket.  `bi` is the last value assigned to `bucketIndex` so far;
when the loop runs to the end without a break, `bucketIndex` is the last `i`
and `itemIndex` keeps its old value `ii`. -/
def advanceGo (data : List Bucket) : Nat → Nat → Nat → Nat → Nat × Nat
  | 0, bi, _, ii => (bi, ii)
  | fuel + 1, bi, i, ii =>
    if i ≤ data.length - 1 then
      if (data.getD i ⟨[]⟩).items ≠ [] then (i, 0)
      else advanceGo data fuel i (i + 1) ii
    else (bi, ii)

/-- The advance loop started at index `i` with enough fuel to scan to the end
of the slot array (when the fuel hits 0, `i` is already `data.length + 1`, so
the exhausted-fuel result coincides with the loop-exit result). -/
def advanceLoop (data : List Bucket) (bi i ii : Nat) : Nat × Nat :=
  advanceGo data (data.length + 1 - i) bi i ii

/-- One call of the closure returned by `simpleMap.iter`: move past an
exhausted bucket, then stop (`ok = false`) whenever
`bucketIndex >= len(m.data)-1`, otherwise yield the current item and step
`itemIndex`. -/
def iterNext (data : List Bucket) (bi ii : Nat) :
    Option ((Nat × List Byte × Stats) × Nat × Nat) :=
  let s :=
    if (data.getD bi ⟨[]⟩).items.length ≤ ii then advanceLoop data bi (bi + 1) ii
    else (bi, ii)
  if data.length - 1 ≤ s.1 then none
  else
    let item := (data.getD s.1 ⟨[]⟩).items.getD s.2 default
    some ((s.1, item.name, item.stats), s.1, s.2 + 1)

/-- All triples yielded by repeatedly calling the `iter` closure, driven by
fuel (each yielded triple consumes one stored item, so any fuel at least the
total number of stored items plus one runs the iteration to completion). -/
def iterListAux (data : List Bucket) : Nat → Nat → Nat → List (Nat × List Byte × Stats)
  | 0, _, _ => []
  | fuel + 1, bi, ii =>
    match iterNext data bi ii with
    | none => []
    | some (e, bi', ii') => e :: iterListAux data fuel bi' ii'

/-- Total number of items stored in the buckets. -/
def totalItems (data : List Bucket) : Nat :=
  (data.map (fun b => b.items.length)).sum

/-- The full sequence yielded by `simpleMap.iter` from `main.go`, starting
from `bucketIndex = 0`, `itemIndex = 0`. -/
def iterList (m : SimpleMap) : List (Nat × List Byte × Stats) :=
  iterListAux m.data (totalItems m.data + 1) 0 0

/-- Model of `sumChunk` from `main.go`: for every triple yielded by the chunk table's
`iter`, fetch the accumulator's stats at the same position and name (a fresh
zero `stats{}` is inserted when absent) and fold the chunk's stats in with
`count+count`, `sum+sum`, `min`, `max`.  The in-place pointer mutation is
modelled by storing the combined record back. -/
def sumChunk (sumStationData stationDataChunk : SimpleMap) : SimpleMap :=
  (iterList stationDataChunk).foldl
    (fun acc e =>
      let base :=
        match acc.get e.1 e.2.1 with
        | some s => s
        | none => ⟨0, 0, 0, 0⟩
      acc.set e.1 e.2.1 (mergeStats base e.2.2))
    sumStationData

/-- The per-record body of `chunkReader` from `main.go`: hash the name once,
look the stats up (inserting a fresh zero `stats{}` when absent) and fold the
measurement in with `updateStats`.  The `*stats` pointer mutation is modelled
by storing the updated record back at the same position.  (For the capacities
used here `stationPos` never panics; the `none` arm is unreachable.) -/
def applyRecord (m : SimpleMap) (name : List Byte) (v : Int) : SimpleMap :=
  match m.pos name with
  | none => m
  | some pos =>
    match m.get pos name with
    | some st => m.set pos name (updateStats st v)
    | none => m.set pos name (updateStats ⟨0, 0, 0, 0⟩ v)

/-- Aggregating a list of (name, value) records into one table via
`updateStats`, exactly as the loop in `chunkReader` does. -/
def processRecords (capacity : Nat) (recs : List (List Byte × Int)) : SimpleMap :=
  recs.foldl (fun m r => applyRecord m r.1 r.2) (newSimpleMap capacity)

/-- Go's `<` on strings, byte for byte: the comparison used by the
`sort.Slice` call in `printOutput` (`names[i].name < names[j].name`).
A proper prefix is smaller; otherwise the first differing byte decides. -/
def goLess : List Byte → List Byte → Bool
  | [], [] => false
  | [], _ :: _ => true
  | _ :: _, [] => false
  | a :: as, b :: bs => if a < b then true else if b < a then false else goLess as bs

/-- The non-strict closure of `goLess`: the ordering guaranteed by
`sort.Slice` between any two (not necessarily distinct) sorted elements. -/
def nameLe (a b : List Byte) : Prop := goLess a b = true ∨ a = b

instance : DecidableRel nameLe := fun a b =>
  inferInstanceAs (Decidable (goLess a b = true ∨ a = b))

/-- The `sort.Slice(names, ...)` call of `printOutput`: a sort of the name
list such that the result is ordered by the `goLess` comparison. -/
def sortNames (names : List (List Byte)) : List (List Byte) :=
  List.insertionSort nameLe names

/-- The name-collection loop of `printOutput`: one name per triple yielded by
the final table's `iter`. -/
def collectNames (m : SimpleMap) : List (List Byte) :=
  (iterList m).map (fun e => e.2.1)

/-- The order in which `printOutput` renders the station names: the collected
names, sorted. -/
def printNames (m : SimpleMap) : List (List Byte) :=
  sortNames (collectNames m)

/-- Bodies-to-file encoding for the Chunker statements: a record is a body
(its non-terminator bytes) followed by the `'\n'` terminator, and the input
file is the concatenation of its records. -/
def recJoin (bodies : List (List Byte)) : List Byte :=
  (bodies.map (fun b => b ++ [newlineByte])).flatten

/-- How many leading records of `bodies` fit, one after the other, in `c`
bytes (each record costs its body length plus one terminator byte). -/
def fitBodies : List (List Byte) → Nat → Nat
  | [], _ => 0
  | b :: bs, c => if b.length + 1 ≤ c then fitBodies bs (c - (b.length + 1)) + 1 else 0

/-! ## Theorems -/

/-- C6: `parseNumber` decodes each of the six literal value byte strings
("9.9", "-9.9", "99.9", "-99.9", "0.0", "-0.1") to its listed signed
fixed-point integer, and dividing each decoded integer by 10 reproduces the
original decimal value. -/
theorem parseNumber_literals_round_trip :
    (parseNumber [57, 46, 57] = some 99 ∧ (99 : ℚ) / 10 = 9 + 9 / 10) ∧
    (parseNumber [45, 57, 46, 57] = some (-99) ∧ (-99 : ℚ) / 10 = -(9 + 9 / 10)) ∧
    (parseNumber [57, 57, 46, 57] = some 999 ∧ (999 : ℚ) / 10 = 99 + 9 / 10) ∧
    (parseNumber [45, 57, 57, 46, 57] = some (-999) ∧ (-999 : ℚ) / 10 = -(99 + 9 / 10)) ∧
    (parseNumber [48, 46, 48] = some 0 ∧ (0 : ℚ) / 10 = 0) ∧
    (parseNumber [45, 48, 46, 49] = some (-1) ∧ (-1 : ℚ) / 10 = -(0 + 1 / 10)) :=
  ⟨⟨by decide, by norm_num⟩, ⟨by decide, by norm_num⟩, ⟨by decide, by norm_num⟩,
    ⟨by decide, by norm_num⟩, ⟨by decide, by norm_num⟩, ⟨by decide, by norm_num⟩⟩

/-- C7: on a fresh `stats` (count = 0) `updateStats` sets min = max = sum =
value and count = 1 — the zero default of min/max is never folded in — and on
a non-fresh record it increments the count, adds to the sum and folds the
value into min/max. -/
theorem updateStats_first_and_subsequent (s : Stats) (v : Int) :
    (s.count = 0 → updateStats s v = ⟨v, v, v, 1⟩) ∧
    (s.count ≠ 0 → updateStats s v = ⟨s.sum + v, min s.min v, max s.max v, s.count + 1⟩) := by
  unfold updateStats
  exact ⟨fun h => by rw [if_pos h], fun h => by rw [if_neg h]⟩

/-- Witness for C7 at concrete inputs (a fresh record observing 5, then a
second observation of 3). -/
theorem updateStats_first_and_subsequent_witness :
    updateStats ⟨0, 0, 0, 0⟩ 5 = ⟨5, 5, 5, 1⟩ ∧
    updateStats ⟨5, 5, 5, 1⟩ 3 = ⟨8, 3, 5, 2⟩ := by
  constructor
  · exact (updateStats_first_and_subsequent ⟨0, 0, 0, 0⟩ 5).1 rfl
  · rw [(updateStats_first_and_subsequent ⟨5, 5, 5, 1⟩ 3).2 (by decide)]
    decide

/-- C3 (failing input): on the shortest well-formed record `"A;0.0\n"`
(1-byte name, 3-byte value) the eager read of `data[newlineIdx-6]` is the
out-of-range index `-1`, so `parseLine` panics instead of returning the
parsed record — the claimed absence of out-of-range accesses fails. -/
theorem parseLine_crashes_on_shortest_record :
    parseLine [65, 59, 48, 46, 48, 10] = none := by decide

/-- C2 (failing input): a capacity-3 table holding entries in slot 0 and in
the last slot 2 (both reachable by `set`).  `iter` yields only the slot-0
entry and never the entry stored in the last slot, although the table stores
two entries. -/
theorem iter_drops_last_slot :
    iterList (((newSimpleMap 3).set 0 [65] ⟨1, 1, 1, 1⟩).set 2 [66] ⟨2, 2, 2, 2⟩) =
      [(0, [65], ⟨1, 1, 1, 1⟩)] ∧
    (((newSimpleMap 3).set 0 [65] ⟨1, 1, 1, 1⟩).set 2 [66] ⟨2, 2, 2, 2⟩).length = 2 := by
  decide

/-- C10 (counterexample): the claim quantifies over every positive capacity,
but at capacity `2^32` the Go conversion `uint32(capacity)` is 0 and the
modulo is a division by zero — `stationPos` panics instead of returning any
index. -/
theorem stationPos_no_index_at_two_pow_32 :
    ¬ ∀ capacity : Nat, 0 < capacity → ∀ station : List Byte,
        ∃ i, stationPos station capacity = some i ∧ i < capacity := by
  intro h
  obtain ⟨i, hi, _⟩ := h 4294967296 (by norm_num) [65]
  rw [show stationPos [65] 4294967296 = none from by decide] at hi
  exact Option.noConfusion hi

/-- C10 (amended): for every station name and every positive capacity whose
truncation to `uint32` is non-zero (in particular every capacity below
`2^32`, such as the program's `maxStations = 2^14`), `stationPos` is a pure
function returning an index strictly below the capacity, hence strictly
inside the slot array of a table of that capacity. -/
theorem stationPos_lt_capacity (station : List Byte) (capacity : Nat)
    (h : capacity % 4294967296 ≠ 0) :
    ∃ i, stationPos station capacity = some i ∧ i < capacity ∧
      i < (newSimpleMap capacity).data.length := by
  refine ⟨stationHash station % (capacity % 4294967296), ?_, ?_, ?_⟩
  · unfold stationPos
    rw [if_neg h]
  · exact lt_of_lt_of_le (Nat.mod_lt _ (Nat.pos_of_ne_zero h)) (Nat.mod_le _ _)
  · simpa [newSimpleMap] using
      lt_of_lt_of_le (Nat.mod_lt _ (Nat.pos_of_ne_zero h)) (Nat.mod_le _ _)

/-- Witness for C10 (amended) at the program's own capacity `2^14`. -/
theorem stationPos_lt_capacity_witness :
    (16384 : Nat) % 4294967296 ≠ 0 ∧
    ∃ i, stationPos [65] 16384 = some i ∧ i < 16384 ∧
      i < (newSimpleMap 16384).data.length :=
  ⟨by decide, stationPos_lt_capacity [65] 16384 (by decide)⟩

theorem getD_set_self {α : Type} (l : List α) (i : Nat) (a d : α) (h : i < l.length) :
    (l.set i a).getD i d = a := by
  induction l generalizing i with
  | nil => simp at h
  | cons x xs ih =>
    cases i with
    | zero => rfl
    | succ n => exact ih n (by simpa using h)

theorem bucketGetLoop_bucketSetLoop (items : List BucketItem) (name : List Byte) (st : Stats) :
    bucketGetLoop (bucketSetLoop items name st).1 name = some st := by
  induction items with
  | nil => simp [bucketSetLoop, bucketGetLoop]
  | cons it rest ih =>
    by_cases h : it.name = name
    · simp [bucketSetLoop, bucketGetLoop, h]
    · simp [bucketSetLoop, bucketGetLoop, h, ih]

theorem getBody_eq_loop (items : List BucketItem) (name : List Byte) :
    (if items.length = 0 then none
     else if items.length = 1 then
       if (items.getD 0 default).name ≠ name then none
       else some (items.getD 0 default).stats
     else bucketGetLoop items name) = bucketGetLoop items name := by
  match items with
  | [] => simp [bucketGetLoop]
  | [a] => by_cases hn : a.name = name <;> simp [bucketGetLoop, hn]
  | a :: b :: rest => rw [if_neg (by simp), if_neg (by simp)]

theorem SimpleMap.get_eq_loop (m : SimpleMap) (pos : Nat) (name : List Byte) :
    m.get pos name = bucketGetLoop (m.data.getD pos ⟨[]⟩).items name := by
  unfold SimpleMap.get
  exact getBody_eq_loop ((m.data.getD pos ⟨[]⟩).items) name

/-- C8: `get` immediately after `set` with the same slot index and name
returns exactly the just-set stats record, for every table whose slot array
the index addresses; and applying `updateStats` twice with the same value to
a fresh entry yields count = 2, sum = 2·v, min = max = v. -/
theorem get_after_set_and_double_update :
    (∀ (m : SimpleMap) (pos : Nat) (name : List Byte) (st : Stats),
        pos < m.data.length → (m.set pos name st).get pos name = some st) ∧
    (∀ v : Int, updateStats (updateStats ⟨0, 0, 0, 0⟩ v) v = ⟨2 * v, v, v, 2⟩) := by
  constructor
  · intro m pos name st hpos
    rw [SimpleMap.get_eq_loop]
    unfold SimpleMap.set
    by_cases h0 : (m.data.getD pos ⟨[]⟩).items.length = 0
    · rw [if_pos h0]
      rw [show (⟨m.data.set pos ⟨[⟨st, name⟩]⟩, m.capacity, m.length + 1⟩ : SimpleMap).data
            = m.data.set pos ⟨[⟨st, name⟩]⟩ from rfl]
      rw [getD_set_self _ _ _ _ (by simpa using hpos)]
      simp [bucketGetLoop]
    · rw [if_neg h0]
      rw [show (⟨m.data.set pos ⟨(bucketSetLoop (m.data.getD pos ⟨[]⟩).items name st).1⟩,
            m.capacity, _⟩ : SimpleMap).data
            = m.data.set pos ⟨(bucketSetLoop (m.data.getD pos ⟨[]⟩).items name st).1⟩ from rfl]
      rw [getD_set_self _ _ _ _ (by simpa using hpos)]
      exact bucketGetLoop_bucketSetLoop _ _ _
  · intro v
    unfold updateStats
    simp [two_mul]

/-- Witness for C8 at a concrete table, slot, name, stats and value. -/
theorem get_after_set_and_double_update_witness :
    (0 < (newSimpleMap 2).data.length ∧
      ((newSimpleMap 2).set 0 [65] ⟨9, 1, 2, 3⟩).get 0 [65] = some ⟨9, 1, 2, 3⟩) ∧
    updateStats (updateStats ⟨0, 0, 0, 0⟩ 7) 7 = ⟨14, 7, 7, 2⟩ := by
  refine ⟨⟨by decide, get_after_set_and_double_update.1 (newSimpleMap 2) 0 [65] ⟨9, 1, 2, 3⟩ (by decide)⟩, ?_⟩
  rw [get_after_set_and_double_update.2 7]
  decide

theorem findEndIdx_of_no_newline (data : List Byte) (idx : Nat)
    (hlen : data.length ≤ idx + 1)
    (hnonl : lastIdxOf data newlineByte = none) :
    findEndIdx data idx = idx := by
  unfold findEndIdx
  rw [List.take_of_length_le hlen, hnonl]

/-- C4 (amended): when a full-sized read of `chunkSize` bytes contains no
line-terminator byte anywhere, the Chunker signals nothing: the loop body
silently emits the read's first `chunkSize - 1` bytes as a chunk and
continues reading at that offset. -/
theorem chunker_emits_on_terminatorless_full_read (file : List Byte)
    (chunkSize off fuel : Nat)
    (hfull : (readAt file off chunkSize).length = chunkSize)
    (hnonl : lastIdxOf (readAt file off chunkSize) newlineByte = none) :
    chunkLoop file chunkSize (fuel + 1) off =
      (chunkLoop file chunkSize fuel (off + (chunkSize - 1))).map
        ((readAt file off chunkSize).take (chunkSize - 1) :: ·) := by
  show (if (readAt file off chunkSize).length < chunkSize then
          some [readAt file off chunkSize]
        else
          (chunkLoop file chunkSize fuel
              (off + findEndIdx (readAt file off chunkSize) (chunkSize - 1))).map
            ((readAt file off chunkSize).take
              (findEndIdx (readAt file off chunkSize) (chunkSize - 1)) :: ·)) = _
  rw [if_neg (by omega), findEndIdx_of_no_newline _ _ (by omega) hnonl]

/-- C4 (counterexample): a 10-byte terminator-less input with chunk size 8.
The first read is full-sized and contains no `'\n'`, yet the Chunker emits a
7-byte terminator-less chunk (and then the 3-byte tail) with no error of any
kind — contradicting the claim that it signals an irrecoverable input-format
error rather than emitting a chunk. -/
theorem chunker_silent_on_terminatorless_full_read :
    chunkByBytes (List.replicate 10 65) 8 =
      some [List.replicate 7 65, List.replicate 3 65] ∧
    (∀ b ∈ List.replicate 7 65, b ≠ newlineByte) ∧
    (∀ b ∈ readAt (List.replicate 10 65) 0 8, b ≠ newlineByte) ∧
    (readAt (List.replicate 10 65) 0 8).length = 8 := by
  refine ⟨by decide, by decide, by decide, by decide⟩

/-- Witness for C4 (amended) on the same concrete input. -/
theorem chunker_emits_on_terminatorless_full_read_witness :
    (readAt (List.replicate 10 65) 0 8).length = 8 ∧
    lastIdxOf (readAt (List.replicate 10 65) 0 8) newlineByte = none ∧
    chunkLoop (List.replicate 10 65) 8 2 0 =
      (chunkLoop (List.replicate 10 65) 8 1 (0 + (8 - 1))).map
        ((readAt (List.replicate 10 65) 0 8).take (8 - 1) :: ·) :=
  ⟨by decide, by decide,
    chunker_emits_on_terminatorless_full_read (List.replicate 10 65) 8 0 1
      (by decide) (by decide)⟩

/-- C1 (failing input): partition the record multiset
{("B", 1.0), ("A", 22.7)} into group 1 = [("B", 1.0)] and
group 2 = [("A", 22.7)] (fixed-point values 10 and 227; with capacity 4 both
names hash to slot 1).  "A" is present in group 2's table but absent from the
accumulator, so `sumChunk` inserts a fresh zero `stats{}` and folds with
`min(0, 227)`: the merged minimum for "A" is 0, while aggregating the whole
multiset directly with `updateStats` gives minimum 227.  The merge therefore
does not reproduce the direct aggregation. -/
theorem sumChunk_zero_min_on_absent_name :
    (SimpleMap.get
        (sumChunk (processRecords 4 [([66], 10)]) (processRecords 4 [([65], 227)]))
        1 [65]).map Stats.min = some 0 ∧
    (SimpleMap.get (processRecords 4 [([66], 10), ([65], 227)]) 1 [65]).map Stats.min
      = some 227 := by
  exact ⟨by decide, by decide⟩

theorem goLess_total (a b : List Byte) :
    goLess a b = true ∨ goLess b a = true ∨ a = b := by
  induction a generalizing b with
  | nil =>
    cases b with
    | nil => right; right; rfl
    | cons y ys => left; rfl
  | cons x xs ih =>
    cases b with
    | nil => right; left; rfl
    | cons y ys =>
      rcases Nat.lt_trichotomy x y with h | h | h
      · left; simp [goLess, h]
      · subst h
        rcases ih ys with h2 | h2 | h2
        · left; simp [goLess, h2]
        · right; left; simp [goLess, h2]
        · right; right; rw [h2]
      · right; left; simp [goLess, h]

theorem goLess_trans {a b c : List Byte} (h1 : goLess a b = true)
    (h2 : goLess b c = true) : goLess a c = true := by
  induction a generalizing b c with
  | nil =>
    cases c with
    | nil =>
      cases b with
      | nil => exact absurd h1 (by simp [goLess])
      | cons y ys => exact absurd h2 (by simp [goLess])
    | cons z zs => rfl
  | cons x xs ih =>
    cases b with
    | nil => exact absurd h1 (by simp [goLess])
    | cons y ys =>
      cases c with
      | nil => exact absurd h2 (by simp [goLess])
      | cons z zs =>
        simp only [goLess] at h1 h2 ⊢
        rcases Nat.lt_trichotomy x y with hxy | hxy | hxy
        · rcases Nat.lt_trichotomy y z with hyz | hyz | hyz
          · rw [if_pos (Nat.lt_trans hxy hyz)]
          · subst hyz; rw [if_pos hxy]
          · rw [if_neg (Nat.lt_asymm hyz), if_pos hyz] at h2
            exact absurd h2 (by simp)
        · subst hxy
          rw [if_neg (Nat.lt_irrefl x), if_neg (Nat.lt_irrefl x)] at h1
          rcases Nat.lt_trichotomy x z with hxz | hxz | hxz
          · rw [if_pos hxz]
          · subst hxz
            rw [if_neg (Nat.lt_irrefl x), if_neg (Nat.lt_irrefl x)] at h2 ⊢
            exact ih h1 h2
          · rw [if_neg (Nat.lt_asymm hxz), if_pos hxz] at h2
            exact absurd h2 (by simp)
        · rw [if_neg (Nat.lt_asymm hxy), if_pos hxy] at h1
          exact absurd h1 (by simp)

instance : IsTotal (List Byte) nameLe :=
  ⟨fun a b => by
    rcases goLess_total a b with h | h | h
    · exact Or.inl (Or.inl h)
    · exact Or.inr (Or.inl h)
    · exact Or.inl (Or.inr h)⟩

instance : IsTrans (List Byte) nameLe :=
  ⟨fun a b c h1 h2 => by
    rcases h1 with h1 | h1
    · rcases h2 with h2 | h2
      · exact Or.inl (goLess_trans h1 h2)
      · subst h2; exact Or.inl h1
    · subst h1; exact h2⟩

/-- C9: for every final table, the names in the order rendered by
`printOutput` (collected from `iter`, then sorted with the byte-wise string
comparison) are in strict byte-lexicographic ascending order, whatever the
order of the underlying records and whatever (multi-)byte values appear in
the names, provided the table holds each name at most once. -/
theorem printNames_strictly_sorted (m : SimpleMap)
    (h : (collectNames m).Nodup) :
    (printNames m).Pairwise (fun a b => goLess a b = true) := by
  unfold printNames sortNames
  have hs : (List.insertionSort nameLe (collectNames m)).Pairwise nameLe :=
    List.sorted_insertionSort nameLe (collectNames m)
  have hnd : (List.insertionSort nameLe (collectNames m)).Nodup :=
    ((List.perm_insertionSort nameLe (collectNames m)).nodup_iff).mpr h
  exact (hs.and hnd).imp fun hab => hab.1.resolve_right hab.2

/-- Witness for C9 on a concrete two-name table (names inserted in
descending order come out strictly ascending). -/
theorem printNames_strictly_sorted_witness :
    (collectNames (processRecords 4 [([66], 10), ([65], 227)])).Nodup ∧
    (printNames (processRecords 4 [([66], 10), ([65], 227)])).Pairwise
      (fun a b => goLess a b = true) :=
  ⟨by decide, printNames_strictly_sorted _ (by decide)⟩

theorem lastIdxOf_append_none (l₁ l₂ : List Byte) (b : Byte)
    (h : lastIdxOf l₂ b = none) :
    lastIdxOf (l₁ ++ l₂) b = lastIdxOf l₁ b := by
  induction l₁ with
  | nil => simpa using h
  | cons a as ih => simp only [List.cons_append, lastIdxOf, List.append_eq, ih]

theorem lastIdxOf_append_some (l₁ l₂ : List Byte) (b : Byte) (p : Nat)
    (h : lastIdxOf l₂ b = some p) :
    lastIdxOf (l₁ ++ l₂) b = some (l₁.length + p) := by
  induction l₁ with
  | nil => simpa using h
  | cons a as ih =>
    simp only [List.cons_append, lastIdxOf, List.append_eq, ih, List.length_cons]
    exact congrArg some (Nat.add_right_comm _ _ _)

theorem lastIdxOf_eq_none {l : List Byte} {b : Byte} (h : ∀ x ∈ l, x ≠ b) :
    lastIdxOf l b = none := by
  induction l with
  | nil => rfl
  | cons a as ih =>
    simp only [lastIdxOf, ih fun x hx => h x (List.mem_cons_of_mem a hx)]
    rw [if_neg (h a (List.mem_cons_self a as))]

theorem recJoin_cons (b : List Byte) (bs : List (List Byte)) :
    recJoin (b :: bs) = (b ++ [newlineByte]) ++ recJoin bs := by
  simp [recJoin]

theorem recJoin_append (xs ys : List (List Byte)) :
    recJoin (xs ++ ys) = recJoin xs ++ recJoin ys := by
  simp [recJoin]

theorem recJoin_length_pos (bs : List (List Byte)) (h : bs ≠ []) :
    0 < (recJoin bs).length := by
  cases bs with
  | nil => exact absurd rfl h
  | cons b rest => rw [recJoin_cons]; simp

theorem recJoin_getLast (bs : List (List Byte)) (h : bs ≠ []) :
    (recJoin bs).getLast? = some newlineByte := by
  induction bs with
  | nil => exact absurd rfl h
  | cons b rest ih =>
    rw [recJoin_cons]
    cases rest with
    | nil => rw [recJoin, List.map_nil, List.flatten_nil, List.append_nil]
             exact List.getLast?_concat b
    | cons r rs =>
      rw [List.getLast?_append_of_ne_nil]
      · exact ih (by simp)
      · exact List.ne_nil_of_length_pos (recJoin_length_pos _ (by simp))

theorem recJoin_take_fit_le (bs : List (List Byte)) (c : Nat) :
    (recJoin (bs.take (fitBodies bs c))).length ≤ c := by
  induction bs generalizing c with
  | nil => simp [fitBodies, recJoin]
  | cons b rest ih =>
    by_cases h : b.length + 1 ≤ c
    · rw [fitBodies, if_pos h, List.take_succ_cons, recJoin_cons]
      have := ih (c - (b.length + 1))
      simp only [List.length_append, List.length_cons, List.length_nil]
      omega
    · rw [fitBodies, if_neg h]
      simp [recJoin]

theorem lastIdxOf_recJoin_take (bs : List (List Byte)) (c : Nat)
    (hv : ∀ b ∈ bs, ∀ x ∈ b, x ≠ newlineByte) :
    lastIdxOf ((recJoin bs).take c) newlineByte =
      if fitBodies bs c = 0 then none
      else some ((recJoin (bs.take (fitBodies bs c))).length - 1) := by
  induction bs generalizing c with
  | nil => simp [recJoin, fitBodies, lastIdxOf]
  | cons b rest ih =>
    have hvb : ∀ x ∈ b, x ≠ newlineByte := hv b (List.mem_cons_self b rest)
    have hvr : ∀ r ∈ rest, ∀ x ∈ r, x ≠ newlineByte :=
      fun r hr => hv r (List.mem_cons_of_mem b hr)
    have hrlen : (b ++ [newlineByte]).length = b.length + 1 := by simp
    by_cases hfit : b.length + 1 ≤ c
    · have hsplit : (recJoin (b :: rest)).take c
          = (b ++ [newlineByte]) ++ (recJoin rest).take (c - (b.length + 1)) := by
        rw [recJoin_cons, List.take_append_eq_append_take,
          List.take_of_length_le (by simp; omega), hrlen]
      rw [hsplit, fitBodies, if_pos hfit, if_neg (Nat.succ_ne_zero _), List.take_succ_cons]
      have hinner := ih (c - (b.length + 1)) hvr
      by_cases h0 : fitBodies rest (c - (b.length + 1)) = 0
      · rw [if_pos h0] at hinner
        rw [lastIdxOf_append_none _ _ _ hinner,
          lastIdxOf_append_some b [newlineByte] newlineByte 0 (by simp [lastIdxOf]), h0]
        simp [recJoin_cons, recJoin]
      · rw [if_neg h0] at hinner
        rw [lastIdxOf_append_some _ _ _ _ hinner, hrlen]
        have hne : rest.take (fitBodies rest (c - (b.length + 1))) ≠ [] := by
          rw [Ne, List.take_eq_nil_iff]
          rintro (h | h)
          · exact h0 h
          · subst h; exact h0 rfl
        have hL := recJoin_length_pos _ hne
        rw [recJoin_cons]
        simp only [List.length_append, List.length_cons, List.length_nil]
        congr 1
        omega
    · rw [fitBodies, if_neg hfit, if_pos rfl]
      have hc0 : c - (b ++ [newlineByte]).length = 0 := by simp; omega
      have hsplit : (recJoin (b :: rest)).take c = b.take c := by
        rw [recJoin_cons, List.take_append_eq_append_take, hc0, List.take_zero,
          List.append_nil, List.take_append_eq_append_take,
          show c - b.length = 0 by omega, List.take_zero, List.append_nil]
      rw [hsplit]
      exact lastIdxOf_eq_none fun x hx => hvb x (List.take_subset _ _ hx)

theorem body_count_le_length (bodies : List (List Byte)) :
    bodies.length ≤ (recJoin bodies).length := by
  induction bodies with
  | nil => simp [recJoin]
  | cons b rest ih =>
    rw [recJoin_cons]
    simp only [List.length_append, List.length_cons, List.length_nil]
    omega

theorem chunkLoop_ne_nil {file : List Byte} {cs fuel off : Nat}
    {chunks : List (List Byte)}
    (h : chunkLoop file cs fuel off = some chunks) : chunks ≠ [] := by
  cases fuel with
  | zero => simp [chunkLoop] at h
  | succ n =>
    simp only [chunkLoop] at h
    by_cases hc : (readAt file off cs).length < cs
    · rw [if_pos hc] at h
      rw [← Option.some.inj h]
      simp
    · rw [if_neg hc] at h
      rcases Option.map_eq_some'.mp h with ⟨a, _, ha⟩
      rw [← ha]
      simp

theorem chunkLoop_spec (file : List Byte) (cs : Nat) (hcs : 0 < cs) :
    ∀ (fuel : Nat) (bodies : List (List Byte)) (off : Nat),
      (∀ b ∈ bodies, (∀ x ∈ b, x ≠ newlineByte) ∧ b.length + 1 ≤ cs) →
      bodies.length + 1 ≤ fuel →
      file.drop off = recJoin bodies →
      ∃ chunks, chunkLoop file cs fuel off = some chunks ∧
        chunks.flatten = recJoin bodies ∧
        ∀ ch ∈ chunks.dropLast, ch.getLast? = some newlineByte := by
  intro fuel
  induction fuel with
  | zero => intro bodies off _ hf _; exact absurd hf (by omega)
  | succ n ih =>
    intro bodies off hv hf hdrop
    have hdata : readAt file off cs = (recJoin bodies).take cs := by
      rw [readAt, hdrop]
    by_cases hlen : (recJoin bodies).length < cs
    · have hdata' : readAt file off cs = recJoin bodies := by
        rw [hdata, List.take_of_length_le (by omega)]
      refine ⟨[recJoin bodies], ?_, by simp, by simp⟩
      simp only [chunkLoop, hdata']
      rw [if_pos hlen]
    · push_neg at hlen
      have hbody : bodies ≠ [] := by
        intro h
        subst h
        simp only [recJoin, List.map_nil, List.flatten_nil, List.length_nil] at hlen
        omega
      obtain ⟨b, rest, rfl⟩ : ∃ b rest, bodies = b :: rest := by
        cases bodies with
        | nil => exact absurd rfl hbody
        | cons b r => exact ⟨b, r, rfl⟩
      have hfit : b.length + 1 ≤ cs := (hv b (List.mem_cons_self b rest)).2
      have hk0 : fitBodies (b :: rest) cs ≠ 0 := by
        rw [fitBodies, if_pos hfit]
        exact Nat.succ_ne_zero _
      have hdlen : (readAt file off cs).length = cs := by
        rw [hdata, List.length_take]
        omega
      have hchar := lastIdxOf_recJoin_take (b :: rest) cs (fun r hr => (hv r hr).1)
      rw [if_neg hk0] at hchar
      have htne : (b :: rest).take (fitBodies (b :: rest) cs) ≠ [] := by
        rw [Ne, List.take_eq_nil_iff]
        rintro (h | h)
        · exact hk0 h
        · simp at h
      have hL1 := recJoin_length_pos _ htne
      have hLle := recJoin_take_fit_le (b :: rest) cs
      have hfei : findEndIdx (readAt file off cs) (cs - 1)
          = (recJoin ((b :: rest).take (fitBodies (b :: rest) cs))).length := by
        rw [findEndIdx,
          show (readAt file off cs).take (cs - 1 + 1) = readAt file off cs from
            List.take_of_length_le (by omega),
          hdata, hchar]
        exact Nat.succ_pred_eq_of_pos hL1
      have hjoin : recJoin (b :: rest)
          = recJoin ((b :: rest).take (fitBodies (b :: rest) cs))
            ++ recJoin ((b :: rest).drop (fitBodies (b :: rest) cs)) := by
        rw [← recJoin_append, List.take_append_drop]
      have hemit : (readAt file off cs).take
            (recJoin ((b :: rest).take (fitBodies (b :: rest) cs))).length
          = recJoin ((b :: rest).take (fitBodies (b :: rest) cs)) := by
        rw [hdata, List.take_take, Nat.min_eq_left hLle, hjoin, List.take_left' rfl]
      have hdrop' : file.drop
            (off + (recJoin ((b :: rest).take (fitBodies (b :: rest) cs))).length)
          = recJoin ((b :: rest).drop (fitBodies (b :: rest) cs)) := by
        rw [← List.drop_drop, hdrop, hjoin, List.drop_left' rfl]
      obtain ⟨chunks', hloop', hflat', hlast'⟩ :=
        ih ((b :: rest).drop (fitBodies (b :: rest) cs))
          (off + (recJoin ((b :: rest).take (fitBodies (b :: rest) cs))).length)
          (fun r hr => hv r (List.drop_subset _ _ hr))
          (by
            simp only [List.length_drop, List.length_cons] at hf ⊢
            omega)
          hdrop'
      refine ⟨(readAt file off cs).take
          (recJoin ((b :: rest).take (fitBodies (b :: rest) cs))).length :: chunks',
        ?_, ?_, ?_⟩
      · simp only [chunkLoop]
        rw [if_neg (show ¬ (readAt file off cs).length < cs by omega), hfei, hloop']
        rfl
      · rw [List.flatten_cons, hemit, hflat', ← hjoin]
      · intro ch hch
        rw [List.dropLast_cons_of_ne_nil (chunkLoop_ne_nil hloop')] at hch
        rcases List.mem_cons.mp hch with h | h
        · rw [h, hemit]
          exact recJoin_getLast _ htne
        · exact hlast' ch h


/-- C5: for every input that is a concatenation of newline-terminated records
(bodies free of the terminator byte) each of which, terminator included, fits
within the chunk size, and every positive chunk size, `chunkByBytes`
terminates and the chunks it emits concatenate back to the original byte
stream exactly, while every chunk except possibly the last ends immediately
after a `'\n'` terminator (the terminator belonging to the chunk that ends
there) — no chunk boundary falls inside a record. -/
theorem chunkByBytes_line_aligned_cover (bodies : List (List Byte)) (chunkSize : Nat)
    (hcs : 0 < chunkSize)
    (hval : ∀ b ∈ bodies, (∀ x ∈ b, x ≠ newlineByte) ∧ b.length + 1 ≤ chunkSize) :
    ∃ chunks, chunkByBytes (recJoin bodies) chunkSize = some chunks ∧
      chunks.flatten = recJoin bodies ∧
      ∀ ch ∈ chunks.dropLast, ch.getLast? = some newlineByte := by
  have hfuel : bodies.length + 1 ≤ (recJoin bodies).length + 1 := by
    have := body_count_le_length bodies
    omega
  exact chunkLoop_spec (recJoin bodies) chunkSize hcs ((recJoin bodies).length + 1)
    bodies 0 hval hfuel (by simp)

/-- Witness for C5: the two-record input "A;0.0\nBC;1.5\n" with chunk
size 8. -/
theorem chunkByBytes_line_aligned_cover_witness :
    (0 < 8 ∧ ∀ b ∈ [[65, 59, 48, 46, 48], [66, 67, 59, 49, 46, 53]],
        (∀ x ∈ b, x ≠ newlineByte) ∧ b.length + 1 ≤ 8) ∧
    ∃ chunks,
      chunkByBytes (recJoin [[65, 59, 48, 46, 48], [66, 67, 59, 49, 46, 53]]) 8
          = some chunks ∧
      chunks.flatten = recJoin [[65, 59, 48, 46, 48], [66, 67, 59, 49, 46, 53]] ∧
      ∀ ch ∈ chunks.dropLast, ch.getLast? = some newlineByte :=
  ⟨⟨by decide, by decide⟩,
    chunkByBytes_line_aligned_cover [[65, 59, 48, 46, 48], [66, 67, 59, 49, 46, 53]] 8
      (by decide) (by decide)⟩
